import Mathlib

/-!
Verification of the dcrlnd specification claims against a shallow embedding
of the repository's source.

Conventions of the embedding:
- Go `int64` quantities (dcrutil.Amount, tx sizes) are embedded as `Int`;
  Go's `/` on integers truncates toward zero, which is `Int.tdiv` here.
- Go `uint16`/`uint32`/`uint64` quantities are embedded as `Nat`.
- Fallible Go functions returning `(..., error)` are embedded as `Except`
  or `Option` values, with one error constructor per distinct source error.
- Components of the repository whose implementation is not part of the
  source snapshot (only their tests or callers are) are modelled from the
  specification; each such definition carries a doc comment starting with
  `Modelled from the spec:`.
-/

/-- Modelled from the spec: lnwallet.AtomPerKByte.FeeForSize (the fee-rate
helper of the wallet package) is not under src/. The spec expresses sweep
fee rates in atoms per kilobyte, so the fee for a transaction of `size`
bytes is `rate * size / 1000` with truncating integer division. -/
def FeeForSize (rate : Int) (size : Int) : Int :=
  Int.tdiv (rate * size) 1000

/-- Modelled from the spec: lnwallet.DefaultDustLimit is not under src/; the
spec refers to a negotiated dust threshold below which outputs are not
created. The concrete constant is external to every claim below. -/
def DefaultDustLimit : Int := 6030

/-- watchtower/wtpolicy.RewardScale: denominator of the proportional reward
component, in millionths. -/
def RewardScale : Int := 1000000

/-- watchtower/wtpolicy.Policy, restricted to the fields used by the
justice-transaction output computations. -/
structure Policy where
  maxUpdates : Nat
  rewardBase : Nat
  rewardRate : Nat
  sweepFeeRate : Int
deriving DecidableEq

/-- The error values of watchtower/wtpolicy (ErrFeeExceedsInputs,
ErrRewardExceedsInputs, ErrCreatesDust). -/
inductive WtPolicyError
  | feeExceedsInputs
  | rewardExceedsInputs
  | createsDust
deriving DecidableEq

/-- watchtower/wtpolicy.ComputeRewardAmount. -/
def ComputeRewardAmount (total : Int) (base rate : Nat) : Int :=
  let rewardBase : Int := (base : Int)
  let rewardRate : Int := (rate : Int)
  if rewardBase > total then
    rewardBase
  else
    let afterBase := total - rewardBase
    rewardBase + Int.tdiv (afterBase * rewardRate + RewardScale - 1) RewardScale

/-- watchtower/wtpolicy.(*Policy).ComputeAltruistOutput. -/
def ComputeAltruistOutput (p : Policy) (totalAmt : Int) (txSize : Int) :
    Except WtPolicyError Int :=
  let txFee := FeeForSize p.sweepFeeRate txSize
  if txFee > totalAmt then
    .error .feeExceedsInputs
  else
    let sweepAmt := totalAmt - txFee
    if sweepAmt ≤ DefaultDustLimit then
      .error .createsDust
    else
      .ok sweepAmt

/-- watchtower/wtpolicy.(*Policy).ComputeRewardOutputs. -/
def ComputeRewardOutputs (p : Policy) (totalAmt : Int) (txSize : Int) :
    Except WtPolicyError (Int × Int) :=
  let txFee := FeeForSize p.sweepFeeRate txSize
  if txFee > totalAmt then
    .error .feeExceedsInputs
  else
    let rewardAmt := ComputeRewardAmount totalAmt p.rewardBase p.rewardRate
    if rewardAmt + txFee > totalAmt then
      .error .rewardExceedsInputs
    else
      let sweepAmt := totalAmt - rewardAmt - txFee
      if sweepAmt ≤ DefaultDustLimit then
        .error .createsDust
      else
        .ok (sweepAmt, rewardAmt)

/-- channeldb.ChannelEdgePolicy, restricted to the fields read by the unified
policy logic of routing/unified_policies.go. Flag encodings follow lnwire:
bit 0 of MessageFlags is the optional max-HTLC presence flag and bit 1 of
ChannelFlags is ChanUpdateDisabled. Milli-atom amounts are Nat (uint64). -/
structure ChannelEdgePolicy where
  channelID : Nat
  messageFlags : Nat
  channelFlags : Nat
  timeLockDelta : Nat
  minHTLC : Nat
  maxHTLC : Nat
  feeBaseMAtoms : Nat
  feeProportionalMillionths : Nat
deriving DecidableEq

/-- lnwire.MessageFlags.HasMaxHtlc: tests the max-HTLC presence bit. -/
def hasMaxHtlc (messageFlags : Nat) : Bool :=
  messageFlags.testBit 0

/-- lnwire.ChanUpdateDisabled test on ChannelFlags (bit 1). -/
def isDisabledFlag (channelFlags : Nat) : Bool :=
  channelFlags.testBit 1

/-- Modelled from the spec: lnwire.NewMAtomsFromAtoms is not under src/; one
atom is one thousand milli-atoms. -/
def NewMAtomsFromAtoms (a : Int) : Int :=
  a * 1000

/-- Modelled from the spec: channeldb.(*ChannelEdgePolicy).ComputeFee is not
under src/. Per the spec, the forwarding fee for an amount is the base fee
plus the fee-rate-millionths proportional part of the amount, the
proportional part rounded up (scenario S4). -/
def ComputeFee (e : ChannelEdgePolicy) (amt : Nat) : Nat :=
  e.feeBaseMAtoms + (amt * e.feeProportionalMillionths + 999999) / 1000000

/-- routing.unifiedPolicyEdge: a channel policy with the channel capacity in
atoms (zero when the capacity is unknown, e.g. for light clients). -/
structure UnifiedPolicyEdge where
  policy : ChannelEdgePolicy
  capacity : Int
deriving DecidableEq

/-- routing.(*unifiedPolicyEdge).amtInRange. -/
def amtInRange (u : UnifiedPolicyEdge) (amt : Nat) : Bool :=
  if 0 < u.capacity ∧ (amt : Int) > NewMAtomsFromAtoms u.capacity then
    false
  else if hasMaxHtlc u.policy.messageFlags ∧ amt > u.policy.maxHTLC then
    false
  else if amt < u.policy.minHTLC then
    false
  else
    true

/-- routing.unifiedPolicy: all channels between a pair of nodes. -/
structure UnifiedPolicy where
  edges : List UnifiedPolicyEdge
  localChan : Bool

/-- The loop state of routing.(*unifiedPolicy).getPolicyNetwork: the best
policy so far together with the running maximum fee and time lock. -/
structure NetPolicySearch where
  bestPolicy : Option ChannelEdgePolicy
  maxFee : Nat
  maxTimelock : Nat

/-- One iteration of the loop body of getPolicyNetwork. -/
def getPolicyNetworkStep (amt : Nat) (s : NetPolicySearch)
    (edge : UnifiedPolicyEdge) : NetPolicySearch :=
  if ¬ amtInRange edge amt then
    s
  else if isDisabledFlag edge.policy.channelFlags then
    s
  else
    let maxTimelock :=
      if edge.policy.timeLockDelta > s.maxTimelock then edge.policy.timeLockDelta
      else s.maxTimelock
    let fee := ComputeFee edge.policy amt
    if fee < s.maxFee then
      { s with maxTimelock := maxTimelock }
    else
      { bestPolicy := some edge.policy, maxFee := fee, maxTimelock := maxTimelock }

/-- routing.(*unifiedPolicy).getPolicyNetwork. -/
def getPolicyNetwork (u : UnifiedPolicy) (amt : Nat) : Option ChannelEdgePolicy :=
  let s := u.edges.foldl (getPolicyNetworkStep amt) ⟨none, 0, 0⟩
  match s.bestPolicy with
  | none => none
  | some best => some { best with timeLockDelta := s.maxTimelock }

/-- A channel admissible for non-strict network forwarding of an amount: the
amount is in range for the channel and the channel is not disabled. -/
def admissibleNetworkEdge (amt : Nat) (e : UnifiedPolicyEdge) : Bool :=
  amtInRange e amt && ! isDisabledFlag e.policy.channelFlags

/-- Maximum of a list of naturals (zero for the empty list). -/
def natListMax (l : List Nat) : Nat :=
  l.foldl max 0

/-- The invariant tying the running maximum fee to the best policy found so
far in the getPolicyNetwork loop. -/
def SearchOK (amt : Nat) (s : NetPolicySearch) : Prop :=
  (s.bestPolicy = none → s.maxFee = 0) ∧
  (∀ p, s.bestPolicy = some p → ComputeFee p amt = s.maxFee)

/-- The script classes distinguished by the chanfunding coin selection: the
dcrd txscript classifier (external to this repository) maps each coin's
pkScript either to pay-to-pubkey-hash or to some other class. -/
inductive ScriptClass
  | pubKeyHash
  | other
deriving DecidableEq

/-- lnwallet/chanfunding.Coin: a spendable UTXO. The source stores the
pkScript bytes; the embedding stores the value and the script class that the
external classifier assigns to the pkScript. -/
structure Coin where
  value : Int
  scriptClass : ScriptClass
deriving DecidableEq

/-- Whether the external classifier reports txscript.PubKeyHashTy for a coin. -/
def isPubKeyHash (c : Coin) : Bool :=
  match c.scriptClass with
  | .pubKeyHash => true
  | .other => false

/-- The error outcomes of lnwallet/chanfunding coin selection:
ErrInsufficientFunds and the three fmt.Errorf failures of
CoinSelectSubtractFees. -/
inductive CoinSelectError
  | insufficientFunds
  | unsupportedAddressType
  | dustOutput
  | excessiveFee
deriving DecidableEq

/-- Total value of a list of coins. -/
def coinSum (l : List Coin) : Int :=
  (l.map Coin.value).sum

/-- The loop of lnwallet/chanfunding.selectInputs: `acc` is the value already
accumulated over the coins walked so far; as soon as the accumulated value
reaches amt the prefix walked so far (inclusive) is returned with its total. -/
def selectInputsLoop (amt acc : Int) :
    List Coin → Except CoinSelectError (Int × List Coin)
  | [] => .error .insufficientFunds
  | c :: rest =>
    if acc + c.value ≥ amt then
      .ok (acc + c.value, [c])
    else
      (selectInputsLoop amt (acc + c.value) rest).map (fun r => (r.1, c :: r.2))

/-- lnwallet/chanfunding.selectInputs. -/
def selectInputs (amt : Int) (coins : List Coin) :
    Except CoinSelectError (Int × List Coin) :=
  selectInputsLoop amt 0 coins

/-- The size constants of the external input.TxSizeEstimator: a base
transaction overhead plus per-input and per-output sizes. The concrete
values live outside this repository, so they are carried as parameters. -/
structure TxSizes where
  baseSize : Int
  p2pkhInputSize : Int
  p2shOutputSize : Int
  p2pkhOutputSize : Int
deriving DecidableEq

/-- Size estimate for a transaction with the given number of P2PKH inputs,
P2SH outputs and P2PKH outputs (input.TxSizeEstimator.Size). -/
def estimatedSize (sz : TxSizes) (p2pkhIns p2shOuts p2pkhOuts : Nat) : Int :=
  sz.baseSize + sz.p2pkhInputSize * p2pkhIns + sz.p2shOutputSize * p2shOuts +
    sz.p2pkhOutputSize * p2pkhOuts

/-- lnwallet/chanfunding.CoinSelectSubtractFees. -/
def CoinSelectSubtractFees (sz : TxSizes) (feeRate amt dustLimit : Int)
    (coins : List Coin) : Except CoinSelectError (List Coin × Int × Int) :=
  match selectInputs amt coins with
  | .error e => .error e
  | .ok (totalAtoms, selectedUtxos) =>
    if ¬ selectedUtxos.all isPubKeyHash then
      .error .unsupportedAddressType
    else
      let totalSize := estimatedSize sz selectedUtxos.length 1 0
      let requiredFee := FeeForSize feeRate totalSize
      let outputAmt := totalAtoms - requiredFee
      if outputAmt ≤ dustLimit then
        .error .dustOutput
      else
        let totalSize2 := estimatedSize sz selectedUtxos.length 1 1
        let requiredFee2 := FeeForSize feeRate totalSize2
        let newChange := totalAtoms - amt
        let newOutput := amt - requiredFee2
        let outs :=
          if newChange > dustLimit ∧ newOutput > dustLimit then
            (newOutput, newChange)
          else
            (outputAmt, (0 : Int))
        let totalOut := outs.1 + outs.2
        let fee := totalAtoms - totalOut
        if fee > Int.tdiv totalOut 5 then
          .error .excessiveFee
        else
          .ok (selectedUtxos, outs.1, outs.2)

/-- wtdb.ClientSession, restricted to the fields that the session-creation
claim reads: the tower, the session key index used and the session id. -/
structure WtClientSession where
  towerID : Nat
  keyIndex : Nat
  sessionID : Nat
deriving DecidableEq

/-- The error values of the watchtower client DB referenced by the claim
(ErrNoReservedKeyIndex, ErrIncorrectKeyIndex,
ErrClientSessionAlreadyExists). -/
inductive WtDBError
  | noReservedKeyIndex
  | incorrectKeyIndex
  | clientSessionAlreadyExists
deriving DecidableEq

/-- Modelled from the spec: the watchtower client database (wtdb client DB
and its mock) is not under src/; only its test harness is. The state holds a
monotone key-index counter starting at one (so index zero is never handed
out), at most one reserved-but-uncommitted key index per tower, and the
committed client sessions. -/
structure WtClientDB where
  nextIndex : Nat
  reserved : List (Nat × Nat)
  sessions : List WtClientSession
deriving DecidableEq

/-- Looks up the reserved key index of a tower, if any. -/
def lookupReserved (towerID : Nat) : List (Nat × Nat) → Option Nat
  | [] => none
  | (t, i) :: rest => if t = towerID then some i else lookupReserved towerID rest

/-- Modelled from the spec: NextSessionKeyIndex reserves a session key index
for a tower. A still-uncommitted reservation is returned again (idempotency
across restarts); otherwise the next counter value is handed out and
recorded. -/
def NextSessionKeyIndex (db : WtClientDB) (towerID : Nat) : Nat × WtClientDB :=
  match lookupReserved towerID db.reserved with
  | some i => (i, db)
  | none =>
      (db.nextIndex,
        { db with
            nextIndex := db.nextIndex + 1,
            reserved := (towerID, db.nextIndex) :: db.reserved })

/-- Modelled from the spec: CreateClientSession inserts a session. It fails
when the session already exists, when no key index is reserved for the
session's tower, or when the session's key index differs from the reserved
one; on success the reservation is consumed. -/
def CreateClientSession (db : WtClientDB) (s : WtClientSession) :
    Except WtDBError WtClientDB :=
  if db.sessions.any (fun q => q.sessionID == s.sessionID) then
    .error .clientSessionAlreadyExists
  else
    match lookupReserved s.towerID db.reserved with
    | none => .error .noReservedKeyIndex
    | some i =>
        if s.keyIndex ≠ i then
          .error .incorrectKeyIndex
        else
          .ok { db with
                  sessions := s :: db.sessions,
                  reserved := db.reserved.filter (fun r => r.1 != s.towerID) }

/-- The initial (freshly opened) watchtower client DB. -/
def initWtClientDB : WtClientDB := ⟨1, [], []⟩

/-- Well-formedness of the watchtower client DB: the counter is positive and
strictly dominates every reserved index and every committed session's key
index. -/
@[reducible]
def WtDBWF (db : WtClientDB) : Prop :=
  1 ≤ db.nextIndex ∧
  (∀ r ∈ db.reserved, 1 ≤ r.2 ∧ r.2 < db.nextIndex) ∧
  (∀ s ∈ db.sessions, s.keyIndex < db.nextIndex)

/-- The chain events a commit-sweep resolver observes: the confirmation of
the commitment transaction, then block epochs. -/
inductive ChainEvent
  | conf (height : Int)
  | epoch (height : Int)
deriving DecidableEq

/-- The phases of the modelled commit-sweep resolver. -/
inductive CommitResolverState
  | waitingConf
  | waitingHeight (maturityHeight : Int)
  | offered (maturityHeight : Int)
deriving DecidableEq

/-- Modelled from the spec: contractcourt's commit-sweep resolver is not
under src/ (only its tests are). A commit-to-self output requires the CSV
delay elapsed since commitment confirmation: on confirmation at height h
with MaturityDelay d the resolver reports maturity h + d; with d = 0 the
output is offered to the sweeper immediately; otherwise it is withheld until
a block epoch of height at least h + d - 1 arrives, so that a sweep
broadcast in the following block is valid at height h + d. -/
def commitSweepStep (delay : Nat) :
    CommitResolverState → ChainEvent → CommitResolverState
  | .waitingConf, .conf h =>
      if delay = 0 then .offered (h + delay)
      else .waitingHeight (h + delay)
  | .waitingHeight m, .epoch h =>
      if h ≥ m - 1 then .offered m else .waitingHeight m
  | st, _ => st

/-- Runs the modelled commit-sweep resolver over a sequence of chain
events starting before confirmation. -/
def commitSweepRun (delay : Nat) (events : List ChainEvent) : CommitResolverState :=
  events.foldl (commitSweepStep delay) .waitingConf

/-- Modelled from the spec: the non-wumbo soft limit on channel capacity
(MaxFundingAmount), per the limit quoted in the channel-size test. -/
def MaxFundingAmount : Int := 1073741823

/-- The two possible answers of the funding manager to an incoming open
request: AcceptChannel, or an Error message. -/
inductive FundingResponse
  | acceptChannel
  | errorMsg
deriving DecidableEq

/-- Modelled from the spec: the funding manager's channel-size admission
control (processFundingOpen) is not under src/ (only its tests are). An
incoming open request is answered with an Error message when wumbo channels
are disabled and the amount exceeds the soft limit, or when the amount
exceeds the configured MaxChanSize; otherwise with AcceptChannel. -/
def fundingOpenSizeCheck (noWumboChans : Bool) (maxChanSize amt : Int) :
    FundingResponse :=
  if noWumboChans ∧ amt > MaxFundingAmount then
    .errorMsg
  else if amt > maxChanSize then
    .errorMsg
  else
    .acceptChannel

/-- Modelled from the spec: chainntnfs.MaxNumConfs, the deepest minimum
confirmation requirement the node tolerates; the concrete value is external
to the claim. -/
def MaxNumConfs : Nat := 6

/-- The initiator's reaction to the counterparty's AcceptChannel message:
continue with FundingCreated or abort with an Error message indicating the
minimum depth is too large. -/
inductive FundingAcceptResponse
  | sendFundingCreated
  | errorNumConfsTooLarge
deriving DecidableEq

/-- Modelled from the spec: on receiving AcceptChannel the initiating
funding manager checks the counterparty's MinAcceptDepth against MaxNumConfs
and aborts the flow with an Error message when it exceeds the bound instead
of proceeding to FundingCreated. -/
def fundingAcceptDepthCheck (minAcceptDepth : Nat) : FundingAcceptResponse :=
  if minAcceptDepth > MaxNumConfs then
    .errorNumConfsTooLarge
  else
    .sendFundingCreated

/-- The persisted channel-opening states of the funding manager relevant to
the FundingLocked retransmission claim. -/
inductive ChanOpeningState
  | markedOpen
  | fundingLockedSent
deriving DecidableEq

/-- Modelled from the spec: after the funding transaction confirms, the
funding manager sends FundingLocked; the persisted state advances from
markedOpen to fundingLockedSent only when the send succeeds, and remains
markedOpen when it fails. -/
def sendFundingLocked (sendOk : Bool) (st : ChanOpeningState) : ChanOpeningState :=
  match st with
  | .markedOpen => if sendOk then .fundingLockedSent else .markedOpen
  | .fundingLockedSent => .fundingLockedSent

/-- Modelled from the spec: on restart the funding manager retransmits
FundingLocked for every channel still persisted as markedOpen; the first
component records whether a retransmission was sent. -/
def restartFundingManager (sendOk : Bool) (st : ChanOpeningState) :
    Bool × ChanOpeningState :=
  match st with
  | .markedOpen => (true, sendFundingLocked sendOk .markedOpen)
  | .fundingLockedSent => (false, .fundingLockedSent)

/-- Modelled from the spec: processFundingLocked on the receiving peer adds
the channel to the set of operating channels; a channel already present is
left untouched. -/
def processFundingLocked (chans : List Nat) (chanID : Nat) : List Nat :=
  if chanID ∈ chans then chans else chanID :: chans

/-- The bech32 data character set of the invoice encoding, in 5-bit value
order. -/
def charToVal (c : Char) : Option Nat :=
  match c with
  | 'q' => some 0
  | 'p' => some 1
  | 'z' => some 2
  | 'r' => some 3
  | 'y' => some 4
  | '9' => some 5
  | 'x' => some 6
  | '8' => some 7
  | 'g' => some 8
  | 'f' => some 9
  | '2' => some 10
  | 't' => some 11
  | 'v' => some 12
  | 'd' => some 13
  | 'w' => some 14
  | '0' => some 15
  | 's' => some 16
  | '3' => some 17
  | 'j' => some 18
  | 'n' => some 19
  | '5' => some 20
  | '4' => some 21
  | 'k' => some 22
  | 'h' => some 23
  | 'c' => some 24
  | 'e' => some 25
  | '6' => some 26
  | 'm' => some 27
  | 'u' => some 28
  | 'a' => some 29
  | '7' => some 30
  | 'l' => some 31
  | _ => none

/-- The bech32 data character for a 5-bit value. -/
def valToChar (v : Nat) : Char :=
  match v with
  | 0 => 'q'
  | 1 => 'p'
  | 2 => 'z'
  | 3 => 'r'
  | 4 => 'y'
  | 5 => '9'
  | 6 => 'x'
  | 7 => '8'
  | 8 => 'g'
  | 9 => 'f'
  | 10 => '2'
  | 11 => 't'
  | 12 => 'v'
  | 13 => 'd'
  | 14 => 'w'
  | 15 => '0'
  | 16 => 's'
  | 17 => '3'
  | 18 => 'j'
  | 19 => 'n'
  | 20 => '5'
  | 21 => '4'
  | 22 => 'k'
  | 23 => 'h'
  | 24 => 'c'
  | 25 => 'e'
  | 26 => '6'
  | 27 => 'm'
  | 28 => 'u'
  | 29 => 'a'
  | 30 => '7'
  | 31 => 'l'
  | _ => 'q'

/-- Decimal digit value of a character, none for non-digits. -/
def digitVal (c : Char) : Option Nat :=
  match c with
  | '9' => some 9
  | '8' => some 8
  | '7' => some 7
  | '6' => some 6
  | '5' => some 5
  | '4' => some 4
  | '3' => some 3
  | '2' => some 2
  | '1' => some 1
  | '0' => some 0
  | _ => none

/-- Character of a decimal digit. -/
def digitChar (d : Nat) : Char :=
  match d with
  | 0 => '0'
  | 1 => '1'
  | 2 => '2'
  | 3 => '3'
  | 4 => '4'
  | 5 => '5'
  | 6 => '6'
  | 7 => '7'
  | 8 => '8'
  | 9 => '9'
  | _ => '0'

/-- The networks an invoice can name, with the human-readable prefixes
exercised by the zpay32 tests (lndcr, lntdcr, lnsdcr, lnrdcr). -/
inductive InvNetwork
  | mainnet
  | testnet
  | simnet
  | regnet
deriving DecidableEq

/-- The network part of the human-readable part, after the `ln` marker. -/
def netHRP : InvNetwork → List Char
  | .mainnet => ['d', 'c', 'r']
  | .testnet => ['t', 'd', 'c', 'r']
  | .simnet => ['s', 'd', 'c', 'r']
  | .regnet => ['r', 'd', 'c', 'r']

/-- Recognizes the network prefix of the human-readable remainder and
returns it with the remaining (amount) characters. -/
def matchNetwork : List Char → Option (InvNetwork × List Char)
  | 'd' :: 'c' :: 'r' :: rest => some (.mainnet, rest)
  | 't' :: 'd' :: 'c' :: 'r' :: rest => some (.testnet, rest)
  | 's' :: 'd' :: 'c' :: 'r' :: rest => some (.simnet, rest)
  | 'r' :: 'd' :: 'c' :: 'r' :: rest => some (.regnet, rest)
  | _ => none

/-- The amount multipliers of the invoice amount suffix. -/
inductive AmtMultiplier
  | milli
  | micro
  | nano
  | pico
deriving DecidableEq

/-- The suffix character of an amount multiplier. -/
def multChar : AmtMultiplier → Char
  | .milli => 'm'
  | .micro => 'u'
  | .nano => 'n'
  | .pico => 'p'

/-- The multiplier denoted by a character, if any. -/
def charToMult (c : Char) : Option AmtMultiplier :=
  match c with
  | 'm' => some .milli
  | 'u' => some .micro
  | 'n' => some .nano
  | 'p' => some .pico
  | _ => none

/-- Parses the amount characters as decimal digits optionally ended by a
single multiplier character; no validity checks yet. -/
def parseAmtTail : List Char → Option (List Nat × Option AmtMultiplier)
  | [] => some ([], none)
  | c :: rest =>
    match digitVal c with
    | some d => (parseAmtTail rest).map (fun r => (d :: r.1, r.2))
    | none =>
      match charToMult c, rest with
      | some m, [] => some ([], some m)
      | _, _ => none

/-- Parses the amount part of the human-readable part: empty means no
amount; otherwise the digits must be nonempty without a leading zero,
optionally followed by one multiplier character. -/
def parseAmount (cs : List Char) :
    Option (Option (List Nat × Option AmtMultiplier)) :=
  match cs with
  | [] => some none
  | _ =>
    match parseAmtTail cs with
    | none => none
    | some (ds, m) =>
      match ds with
      | [] => none
      | d :: _ => if d = 0 then none else some (some (ds, m))

/-- Renders an amount back into the human-readable characters. -/
def encodeAmount : Option (List Nat × Option AmtMultiplier) → List Char
  | none => []
  | some (ds, m) =>
    ds.map digitChar ++
      (match m with
       | none => []
       | some mm => [multChar mm])

/-- The tagged fields of the invoice data part listed by the spec, with
their payloads kept as raw 5-bit groups; a fallback address separates its
leading version group. -/
inductive TaggedField
  | paymentHash (groups : List Nat)
  | description (groups : List Nat)
  | descriptionHash (groups : List Nat)
  | expiry (groups : List Nat)
  | destination (groups : List Nat)
  | fallbackAddr (version : Nat) (groups : List Nat)
  | routeHints (groups : List Nat)
  | minFinalCltv (groups : List Nat)
  | paymentAddr (groups : List Nat)
  | features (groups : List Nat)
deriving DecidableEq

/-- The 5-bit tag value of a field: the bech32 values of the characters p,
d, h, x, n, f, r, c, s, 9. -/
def fieldTag : TaggedField → Nat
  | .paymentHash _ => 1
  | .description _ => 13
  | .descriptionHash _ => 23
  | .expiry _ => 6
  | .destination _ => 19
  | .fallbackAddr _ _ => 9
  | .routeHints _ => 3
  | .minFinalCltv _ => 24
  | .paymentAddr _ => 16
  | .features _ => 5

/-- The payload groups of a field as they appear on the wire. -/
def fieldPayload : TaggedField → List Nat
  | .paymentHash g => g
  | .description g => g
  | .descriptionHash g => g
  | .expiry g => g
  | .destination g => g
  | .fallbackAddr v g => v :: g
  | .routeHints g => g
  | .minFinalCltv g => g
  | .paymentAddr g => g
  | .features g => g

/-- Whether a field is the payment hash. -/
def isPaymentHashField : TaggedField → Bool
  | .paymentHash _ => true
  | _ => false

/-- Number of whole bytes obtained when regrouping 5-bit groups into 8-bit
bytes, as the route-hint parser does before its 51-byte-per-hop check. -/
def routeHintByteLen (groups : Nat) : Nat :=
  5 * groups / 8

/-- Outcome of interpreting one tagged field. -/
inductive FieldParseResult
  | known (f : TaggedField)
  | skipped
  | invalid
deriving DecidableEq

/-- Modelled from the spec: interpretation of one tagged field of the data
part (the zpay32 parsing code is not under src/, only its tests). Known tags
with their expected lengths are decoded; a known tag with an unexpected
length and an unknown tag are ignored, as the test cases with unknown fields
require; an empty fallback address and a route-hint list whose byte length
is not a multiple of 51 are rejected. -/
def mkTaggedField (tag : Nat) (payload : List Nat) : FieldParseResult :=
  if tag = 1 then
    if payload.length = 52 then .known (.paymentHash payload) else .skipped
  else if tag = 13 then
    .known (.description payload)
  else if tag = 23 then
    if payload.length = 52 then .known (.descriptionHash payload) else .skipped
  else if tag = 6 then
    .known (.expiry payload)
  else if tag = 19 then
    if payload.length = 53 then .known (.destination payload) else .skipped
  else if tag = 9 then
    match payload with
    | [] => .invalid
    | v :: rest => if v ≤ 16 then .known (.fallbackAddr v rest) else .skipped
  else if tag = 3 then
    if routeHintByteLen payload.length % 51 = 0 then
      .known (.routeHints payload)
    else
      .invalid
  else if tag = 24 then
    .known (.minFinalCltv payload)
  else if tag = 16 then
    .known (.paymentAddr payload)
  else if tag = 5 then
    .known (.features payload)
  else
    .skipped

/-- The ways Decode can reject an invoice string. -/
inductive InvDecodeError
  | noSeparator
  | noLnPrefix
  | unknownHRP
  | invalidAmount
  | invalidCharacter
  | truncatedField
  | invalidField
  | noPaymentHash
deriving DecidableEq

/-- Modelled from the spec: the tagged-field section of the data part is a
sequence of fields, each a tag group, two length groups and a payload of
that length; the Boolean records whether any field was skipped as unknown
or ill-sized. Structural recursion on a fuel argument; each field consumes
at least three groups, so fuel equal to the list length always suffices. -/
def parseFieldsGroupsFuel : Nat → List Nat → Except InvDecodeError (List TaggedField × Bool)
  | _, [] => .ok ([], false)
  | 0, _ :: _ => .error .truncatedField
  | fuel + 1, t :: l1 :: l0 :: rest =>
    let len := l1 * 32 + l0
    if rest.length < len then
      .error .truncatedField
    else
      match mkTaggedField t (rest.take len) with
      | .invalid => .error .invalidField
      | .known f =>
        match parseFieldsGroupsFuel fuel (rest.drop len) with
        | .error e => .error e
        | .ok (fs, sk) => .ok (f :: fs, sk)
      | .skipped =>
        match parseFieldsGroupsFuel fuel (rest.drop len) with
        | .error e => .error e
        | .ok (fs, _) => .ok (fs, true)
  | _ + 1, _ => .error .truncatedField

/-- Modelled from the spec: parses the whole tagged-field section. -/
def parseFieldsGroups (vals : List Nat) :
    Except InvDecodeError (List TaggedField × Bool) :=
  parseFieldsGroupsFuel vals.length vals

/-- Emits one tagged field back into groups. -/
def encodeField (f : TaggedField) : List Nat :=
  fieldTag f :: (fieldPayload f).length / 32 :: (fieldPayload f).length % 32 ::
    fieldPayload f

/-- Emits a field list back into groups. -/
def encodeFieldsGroups : List TaggedField → List Nat
  | [] => []
  | f :: fs => encodeField f ++ encodeFieldsGroups fs

/-- An invoice as the model decodes it: network, optional amount and the
ordered known tagged fields. -/
structure Invoice where
  net : InvNetwork
  amount : Option (List Nat × Option AmtMultiplier)
  fields : List TaggedField
deriving DecidableEq

/-- Splits a character list at the last occurrence of the bech32 separator
character (the digit one), which cannot occur in the data part. -/
def splitAtLastOne : List Char → Option (List Char × List Char)
  | [] => none
  | c :: rest =>
    match splitAtLastOne rest with
    | some (pre, post) => some (c :: pre, post)
    | none => if c = '1' then some ([], rest) else none

/-- Maps data characters to their 5-bit values, none when a character is
outside the bech32 set. -/
def charsToVals : List Char → Option (List Nat)
  | [] => some []
  | c :: rest =>
    match charToVal c, charsToVals rest with
    | some v, some vs => some (v :: vs)
    | _, _ => none

/-- Modelled from the spec: zpay32.Decode is not under src/ (only its
tests). An invoice string is the human-readable part (the `ln` marker, a
known network prefix, an optional amount), the separator, and the data part
carrying the tagged fields; decoding rejects a missing separator, a missing
`ln` marker, an unknown or empty network part, an invalid amount suffix,
characters outside the bech32 set, ill-formed tagged fields and a missing
payment hash. The spec does not describe the timestamp, signature and
checksum portions, so the model omits them. -/
def decodeInvoiceChars (s : List Char) : Except InvDecodeError Invoice :=
  match splitAtLastOne s with
  | none => .error .noSeparator
  | some (hrp, data) =>
    match hrp with
    | 'l' :: 'n' :: hrpRest =>
      match matchNetwork hrpRest with
      | none => .error .unknownHRP
      | some (net, amtChars) =>
        match parseAmount amtChars with
        | none => .error .invalidAmount
        | some amount =>
          match charsToVals data with
          | none => .error .invalidCharacter
          | some vals =>
            match parseFieldsGroups vals with
            | .error e => .error e
            | .ok (fields, _) =>
              if fields.any isPaymentHashField then
                .ok ⟨net, amount, fields⟩
              else
                .error .noPaymentHash
    | _ => .error .noLnPrefix

/-- Modelled from the spec: zpay32.Decode on a string. -/
def Decode (s : String) : Except InvDecodeError Invoice :=
  decodeInvoiceChars s.data

/-- Modelled from the spec: zpay32.Encode renders the invoice back into the
human-readable part, the separator and the data part. -/
def encodeInvoiceChars (inv : Invoice) : List Char :=
  'l' :: 'n' :: (netHRP inv.net ++ encodeAmount inv.amount ++
    '1' :: (encodeFieldsGroups inv.fields).map valToChar)

/-- Modelled from the spec: zpay32.Encode on the model invoice. -/
def Encode (inv : Invoice) : String :=
  String.mk (encodeInvoiceChars inv)

/-- Whether the tagged-field section of a string contains a field that
Decode would skip (an unknown tag or an ill-sized known field). -/
def dataPartSkipped (s : String) : Bool :=
  match splitAtLastOne s.data with
  | none => false
  | some (_, data) =>
    match charsToVals data with
    | none => false
    | some vals =>
      match parseFieldsGroups vals with
      | .ok (_, sk) => sk
      | .error _ => false

/-- C2: Value is conserved when computing justice-transaction outputs: a
successful ComputeRewardOutputs returns sweep and reward amounts with
sweepAmt + rewardAmt + fee = totalAmt and sweepAmt strictly above the dust
limit, and a successful ComputeAltruistOutput returns totalAmt minus the fee,
strictly above the dust limit. -/
theorem computeOutputs_value_conserved :
    (∀ (p : Policy) (totalAmt : Int) (txSize : Int)
        (sweepAmt rewardAmt : Int),
      ComputeRewardOutputs p totalAmt txSize = .ok (sweepAmt, rewardAmt) →
      sweepAmt + rewardAmt + FeeForSize p.sweepFeeRate txSize = totalAmt ∧
      DefaultDustLimit < sweepAmt) ∧
    (∀ (p : Policy) (totalAmt : Int) (txSize : Int) (amt : Int),
      ComputeAltruistOutput p totalAmt txSize = .ok amt →
      amt = totalAmt - FeeForSize p.sweepFeeRate txSize ∧
      DefaultDustLimit < amt) := by
  constructor
  · intro p totalAmt txSize sweepAmt rewardAmt h
    simp only [ComputeRewardOutputs] at h
    split at h
    · exact absurd h (by simp)
    · split at h
      · exact absurd h (by simp)
      · split at h
        · exact absurd h (by simp)
        · rename_i h1 h2 h3
          simp only [Except.ok.injEq, Prod.mk.injEq] at h
          obtain ⟨hs, hr⟩ := h
          subst hs hr
          omega
  · intro p totalAmt txSize amt h
    simp only [ComputeAltruistOutput] at h
    split at h
    · exact absurd h (by simp)
    · split at h
      · exact absurd h (by simp)
      · rename_i h1 h2
        simp only [Except.ok.injEq] at h
        subst h
        omega

/-- Witness for C2 at a concrete policy and amount. -/
theorem computeOutputs_value_conserved_witness :
    (985000 + 10000 + FeeForSize 10000 500 = 1000000 ∧
      DefaultDustLimit < 985000) ∧
    (995000 = 1000000 - FeeForSize 10000 500 ∧
      DefaultDustLimit < 995000) := by
  refine ⟨computeOutputs_value_conserved.1 ⟨100, 0, 10000, 10000⟩ 1000000 500
      985000 10000 (by rfl), ?_⟩
  exact computeOutputs_value_conserved.2 ⟨100, 0, 10000, 10000⟩ 1000000 500
      995000 (by rfl)

/-- C9: ComputeRewardAmount uses exact integer arithmetic with rounding up:
when base exceeds total it returns base (callers must detect the excess);
otherwise it returns base plus the proportional part (total - base) * rate /
RewardScale rounded up to the nearest whole atom, characterized as the unique
q with RewardScale * (q - 1) < (total - base) * rate ≤ RewardScale * q. -/
theorem computeRewardAmount_ceiling :
    (∀ (total : Int) (base rate : Nat), (base : Int) > total →
      ComputeRewardAmount total base rate = (base : Int)) ∧
    (∀ (total : Int) (base rate : Nat), (base : Int) ≤ total →
      ∃ q : Int, ComputeRewardAmount total base rate = (base : Int) + q ∧
        (total - (base : Int)) * (rate : Int) ≤ RewardScale * q ∧
        RewardScale * (q - 1) < (total - (base : Int)) * (rate : Int)) := by
  constructor
  · intro total base rate h
    simp only [ComputeRewardAmount]
    rw [if_pos h]
  · intro total base rate h
    have hnot : ¬ ((base : Int) > total) := not_lt.mpr h
    refine ⟨Int.tdiv ((total - (base : Int)) * (rate : Int) + RewardScale - 1)
        RewardScale, ?_, ?_⟩
    · simp only [ComputeRewardAmount]
      rw [if_neg hnot]
    · have hn0 : 0 ≤ (total - (base : Int)) * (rate : Int) :=
        mul_nonneg (by omega) (Int.natCast_nonneg rate)
    
      have ht : Int.tdiv ((total - (base : Int)) * (rate : Int) + RewardScale - 1)
          RewardScale =
          ((total - (base : Int)) * (rate : Int) + RewardScale - 1) / RewardScale := by
        refine Int.tdiv_eq_ediv ?_ ?_
        · simp only [RewardScale]
          omega
        · simp only [RewardScale]
          norm_num
      rw [ht]
      simp only [RewardScale] at *
      omega

/-- Witness for C9 at concrete amounts. -/
theorem computeRewardAmount_ceiling_witness :
    ComputeRewardAmount 5 10 999 = 10 ∧
    ∃ q : Int, ComputeRewardAmount 2000000 500000 250000 = 500000 + q ∧
      (2000000 - 500000) * 250000 ≤ RewardScale * q ∧
      RewardScale * (q - 1) < (2000000 - 500000) * 250000 := by
  constructor
  · exact computeRewardAmount_ceiling.1 5 10 999 (by decide)
  · have h := computeRewardAmount_ceiling.2 2000000 500000 250000 (by decide)
    simpa using h

theorem foldl_max_shift (l : List Nat) (a : Nat) :
    l.foldl max a = max a (l.foldl max 0) := by
  induction l generalizing a with
  | nil => simp
  | cons x xs ih =>
    simp only [List.foldl_cons]
    rw [ih (max a x), ih (max 0 x)]
    omega

theorem natListMax_cons (x : Nat) (xs : List Nat) :
    natListMax (x :: xs) = max x (natListMax xs) := by
  simp only [natListMax, List.foldl_cons]
  rw [foldl_max_shift xs (max 0 x)]
  omega

theorem getPolicyNetwork_fold_inv (amt : Nat) (l : List UnifiedPolicyEdge)
    (sbp : Option ChannelEdgePolicy) (smf smt : Nat)
    (hs : SearchOK amt ⟨sbp, smf, smt⟩) :
    SearchOK amt (l.foldl (getPolicyNetworkStep amt) ⟨sbp, smf, smt⟩) ∧
    (l.foldl (getPolicyNetworkStep amt) ⟨sbp, smf, smt⟩).maxFee =
      max smf
        (natListMax ((l.filter (admissibleNetworkEdge amt)).map
          (fun e => ComputeFee e.policy amt))) ∧
    (l.foldl (getPolicyNetworkStep amt) ⟨sbp, smf, smt⟩).maxTimelock =
      max smt
        (natListMax ((l.filter (admissibleNetworkEdge amt)).map
          (fun e => e.policy.timeLockDelta))) ∧
    ((l.foldl (getPolicyNetworkStep amt) ⟨sbp, smf, smt⟩).bestPolicy = none ↔
      sbp = none ∧ l.filter (admissibleNetworkEdge amt) = []) := by
  induction l generalizing sbp smf smt with
  | nil =>
    refine ⟨hs, by simp [natListMax], by simp [natListMax], by simp⟩
  | cons e l ih =>
    by_cases hadm : admissibleNetworkEdge amt e = true
    · have hr : amtInRange e amt = true := by
        simp only [admissibleNetworkEdge, Bool.and_eq_true] at hadm
        exact hadm.1
      have hd : isDisabledFlag e.policy.channelFlags = false := by
        simp only [admissibleNetworkEdge, Bool.and_eq_true, Bool.not_eq_true'] at hadm
        exact hadm.2
      have hstep : getPolicyNetworkStep amt ⟨sbp, smf, smt⟩ e =
          if ComputeFee e.policy amt < smf then
            ⟨sbp, smf, max smt e.policy.timeLockDelta⟩
          else
            ⟨some e.policy, ComputeFee e.policy amt, max smt e.policy.timeLockDelta⟩ := by
        have hmx : (if e.policy.timeLockDelta > smt then e.policy.timeLockDelta
            else smt) = max smt e.policy.timeLockDelta := by
          split <;> omega
        simp [getPolicyNetworkStep, hr, hd, hmx]
      have hfilter : (e :: l).filter (admissibleNetworkEdge amt) =
          e :: l.filter (admissibleNetworkEdge amt) := by
        simp [List.filter_cons, hadm]
      by_cases hfee : ComputeFee e.policy amt < smf
      · have hbp : ∃ p, sbp = some p := by
          rcases h : sbp with _ | p
          · subst h
            have h0 : smf = 0 := hs.1 rfl
            omega
          · exact ⟨p, rfl⟩
        obtain ⟨p, hp⟩ := hbp
        subst hp
        have hfp : ComputeFee p amt = smf := hs.2 p rfl
        have hs1 : SearchOK amt ⟨some p, smf, max smt e.policy.timeLockDelta⟩ := by
          refine ⟨fun h => Option.noConfusion h, fun q hq => ?_⟩
          have hq2 : q = p := by
            cases hq
            rfl
          subst hq2
          exact hfp
        have hind := ih _ _ _ hs1
        rw [List.foldl_cons, hstep, if_pos hfee]
        refine ⟨hind.1, ?_, ?_, ?_⟩
        · rw [hind.2.1, hfilter]
          simp only [List.map_cons, natListMax_cons]
          omega
        · rw [hind.2.2.1, hfilter]
          simp only [List.map_cons, natListMax_cons]
          omega
        · rw [hind.2.2.2, hfilter]
          constructor
          · intro h
            exact absurd h.1 (fun hx => Option.noConfusion hx)
          · intro h
            exact absurd h.2 (by simp)
      · have hs1 : SearchOK amt
            ⟨some e.policy, ComputeFee e.policy amt, max smt e.policy.timeLockDelta⟩ := by
          refine ⟨fun h => Option.noConfusion h, fun q hq => ?_⟩
          have hq2 : q = e.policy := by
            cases hq
            rfl
          subst hq2
          rfl
        have hind := ih _ _ _ hs1
        rw [List.foldl_cons, hstep, if_neg hfee]
        refine ⟨hind.1, ?_, ?_, ?_⟩
        · rw [hind.2.1, hfilter]
          simp only [List.map_cons, natListMax_cons]
          omega
        · rw [hind.2.2.1, hfilter]
          simp only [List.map_cons, natListMax_cons]
          omega
        · rw [hind.2.2.2, hfilter]
          constructor
          · intro h
            exact absurd h.1 (fun hx => Option.noConfusion hx)
          · intro h
            exact absurd h.2 (by simp)
    · have hskip : getPolicyNetworkStep amt ⟨sbp, smf, smt⟩ e = ⟨sbp, smf, smt⟩ := by
        simp only [admissibleNetworkEdge, Bool.and_eq_true, Bool.not_eq_true',
          not_and_or, Bool.not_eq_true, Bool.not_eq_false] at hadm
        rcases hadm with h | h
        · simp [getPolicyNetworkStep, h]
        · simp only [getPolicyNetworkStep, h]
          split
          · rfl
          · simp
      have hfilter : (e :: l).filter (admissibleNetworkEdge amt) =
          l.filter (admissibleNetworkEdge amt) := by
        simp [List.filter_cons, hadm]
      rw [List.foldl_cons, hskip, hfilter]
      exact ih _ _ _ hs

/-- C1: getPolicyNetwork returns nil exactly when no channel toward the peer
is both enabled (ChanUpdateDisabled clear) and has the amount within its
admissible range (per amtInRange); otherwise it returns a synthetic policy
whose fee at the amount equals the maximum fee over the admissible channels
and whose TimeLockDelta equals the maximum TimeLockDelta over those same
channels. -/
theorem getPolicyNetwork_strictest (u : UnifiedPolicy) (amt : Nat) :
    (getPolicyNetwork u amt = none ↔
      u.edges.filter (admissibleNetworkEdge amt) = []) ∧
    (∀ p, getPolicyNetwork u amt = some p →
      ComputeFee p amt =
        natListMax ((u.edges.filter (admissibleNetworkEdge amt)).map
          (fun e => ComputeFee e.policy amt)) ∧
      p.timeLockDelta =
        natListMax ((u.edges.filter (admissibleNetworkEdge amt)).map
          (fun e => e.policy.timeLockDelta))) := by
  have hs0 : SearchOK amt ⟨none, 0, 0⟩ :=
    ⟨fun _ => rfl, fun p hp => Option.noConfusion hp⟩
  have hinv := getPolicyNetwork_fold_inv amt u.edges none 0 0 hs0
  constructor
  · constructor
    · intro h
      rcases hbp : (u.edges.foldl (getPolicyNetworkStep amt) ⟨none, 0, 0⟩).bestPolicy
        with _ | best
      · exact (hinv.2.2.2.mp hbp).2
      · simp only [getPolicyNetwork, hbp] at h
        exact Option.noConfusion h
    · intro h
      have hnone := hinv.2.2.2.mpr ⟨rfl, h⟩
      simp only [getPolicyNetwork, hnone]
  · intro p hp
    rcases hbp : (u.edges.foldl (getPolicyNetworkStep amt) ⟨none, 0, 0⟩).bestPolicy
      with _ | best
    · simp only [getPolicyNetwork, hbp] at hp
      exact Option.noConfusion hp
    · simp only [getPolicyNetwork, hbp, Option.some.injEq] at hp
      subst hp
      have hbest := hinv.1.2 best hbp
      constructor
      · have hsame : ComputeFee
            { best with timeLockDelta :=
                (u.edges.foldl (getPolicyNetworkStep amt) ⟨none, 0, 0⟩).maxTimelock }
            amt = ComputeFee best amt := rfl
        rw [hsame, hbest, hinv.2.1]
        omega
      · have hsame : ChannelEdgePolicy.timeLockDelta
            { best with timeLockDelta :=
                (u.edges.foldl (getPolicyNetworkStep amt) ⟨none, 0, 0⟩).maxTimelock } =
            (u.edges.foldl (getPolicyNetworkStep amt) ⟨none, 0, 0⟩).maxTimelock := rfl
        rw [hsame, hinv.2.2.1]
        omega

/-- Witness for C1 on a two-channel peer: the strict synthetic policy takes
the higher fee and the higher time lock delta. -/
theorem getPolicyNetwork_strictest_witness :
    ComputeFee ⟨2, 0, 0, 144, 0, 0, 2000, 0⟩ 100000 = 2000 ∧
    ChannelEdgePolicy.timeLockDelta ⟨2, 0, 0, 144, 0, 0, 2000, 0⟩ = 144 := by
  have h := (getPolicyNetwork_strictest
      ⟨[⟨⟨1, 0, 0, 40, 0, 0, 1000, 100⟩, 0⟩, ⟨⟨2, 0, 0, 144, 0, 0, 2000, 0⟩, 0⟩],
        false⟩ 100000).2
      ⟨2, 0, 0, 144, 0, 0, 2000, 0⟩ rfl
  constructor
  · rw [h.1]
    decide
  · rw [h.2]
    decide

theorem coinSum_nil : coinSum [] = 0 := rfl

theorem coinSum_cons (c : Coin) (l : List Coin) :
    coinSum (c :: l) = c.value + coinSum l := by
  simp [coinSum]

theorem selectInputsLoop_ok (amt : Int) (coins : List Coin) :
    ∀ (acc t : Int) (pre : List Coin), acc < amt →
      selectInputsLoop amt acc coins = .ok (t, pre) →
      ∃ k, 1 ≤ k ∧ k ≤ coins.length ∧ pre = coins.take k ∧
        t = acc + coinSum pre ∧ amt ≤ t ∧
        ∀ j, j < k → acc + coinSum (coins.take j) < amt := by
  induction coins with
  | nil =>
    intro acc t pre hacc h
    simp only [selectInputsLoop] at h
    exact Except.noConfusion h
  | cons c rest ih =>
    intro acc t pre hacc h
    simp only [selectInputsLoop] at h
    split at h
    · rename_i hge
      simp only [Except.ok.injEq, Prod.mk.injEq] at h
      obtain ⟨ht, hpre⟩ := h
      refine ⟨1, le_refl 1, by simp, by simp [← hpre], ?_, by omega, ?_⟩
      · rw [← hpre, ← ht, coinSum_cons, coinSum_nil]
        omega
      · intro j hj
        have hj0 : j = 0 := by omega
        subst hj0
        simpa [coinSum_nil] using hacc
    · rename_i hge
      rcases hrec : selectInputsLoop amt (acc + c.value) rest with e | p
      · rw [hrec] at h
        exact Except.noConfusion h
      · obtain ⟨t2, pre2⟩ := p
        rw [hrec] at h
        simp only [Except.map, Except.ok.injEq, Prod.mk.injEq] at h
        obtain ⟨ht, hpre⟩ := h
        obtain ⟨k, hk1, hklen, hpre2, ht2, hamt2, hlt2⟩ :=
          ih (acc + c.value) t2 pre2 (by omega) hrec
        refine ⟨k + 1, by omega, by simp; omega, ?_, ?_, by omega, ?_⟩
        · rw [← hpre, hpre2, List.take_succ_cons]
        · rw [← hpre, ← ht, coinSum_cons]
          omega
        · intro j hj
          rcases Nat.eq_zero_or_pos j with h0 | hpos
          · subst h0
            simpa [coinSum_nil] using hacc
          · obtain ⟨j2, rfl⟩ := Nat.exists_eq_add_of_le hpos
            rw [Nat.add_comm 1 j2, List.take_succ_cons, coinSum_cons]
            have := hlt2 j2 (by omega)
            omega

theorem selectInputsLoop_err (amt : Int) (coins : List Coin) :
    ∀ acc : Int, selectInputsLoop amt acc coins = .error .insufficientFunds →
      ∀ k, 1 ≤ k → k ≤ coins.length → acc + coinSum (coins.take k) < amt := by
  induction coins with
  | nil =>
    intro acc _ k hk1 hklen
    simp at hklen
    omega
  | cons c rest ih =>
    intro acc h k hk1 hklen
    simp only [selectInputsLoop] at h
    split at h
    · exact Except.noConfusion h
    · rename_i hge
      rcases hrec : selectInputsLoop amt (acc + c.value) rest with e | p
      · rw [hrec] at h
        simp only [Except.map] at h
        have he : e = .insufficientFunds := by
          cases e <;> simp_all
        subst he
        obtain ⟨j, rfl⟩ : ∃ j, k = j + 1 := ⟨k - 1, by omega⟩
        rw [List.take_succ_cons, coinSum_cons]
        rcases Nat.eq_zero_or_pos j with h0 | hpos
        · subst h0
          simp [coinSum_nil]
          omega
        · have := ih (acc + c.value) hrec j hpos (by simpa using hklen)
          omega
      · rw [hrec] at h
        obtain ⟨t2, pre2⟩ := p
        simp only [Except.map] at h
        exact Except.noConfusion h

theorem tdiv_five_nonpos_of_neg (a : Int) (h : a < 0) : Int.tdiv a 5 ≤ 0 := by
  have h1 : a = -(-a) := by omega
  rw [h1, Int.neg_tdiv]
  have h2 : 0 ≤ Int.tdiv (-a) 5 := Int.tdiv_nonneg (by omega) (by norm_num)
  omega

theorem tdiv_five_mul_le (a : Int) (h : 0 ≤ a) : 5 * Int.tdiv a 5 ≤ a := by
  rw [Int.tdiv_eq_ediv h (by norm_num)]
  omega

/-- C10 counterexample: as stated, the claim is false at amt = 0 with no
coins: selectInputs returns ErrInsufficientFunds although the empty prefix
of the (empty) coin list already reaches the amount, so the error does not
mean that no prefix suffices. -/
theorem selectInputs_zero_counterexample :
    selectInputs 0 [] = .error .insufficientFunds ∧
    0 ≤ coinSum (List.take 0 ([] : List Coin)) := by
  constructor
  · rfl
  · decide

/-- C10 (amended to positive requested amounts): for amt bigger than zero,
selectInputs returns the shortest prefix of the coin list whose cumulative
value reaches amt and ErrInsufficientFunds exactly when no prefix suffices;
and a successful CoinSelectSubtractFees yields a funding output strictly
above the dust limit, a change output only when it is itself above the dust
limit, and an implied fee of at most one fifth of the total output value. -/
theorem coinSelect_spec_amended (amt : Int) (hamt : 1 ≤ amt) :
    (∀ (coins : List Coin) (t : Int) (pre : List Coin),
      selectInputs amt coins = .ok (t, pre) →
      pre = coins.take pre.length ∧ t = coinSum pre ∧ amt ≤ t ∧
      ∀ j, j < pre.length → coinSum (coins.take j) < amt) ∧
    (∀ coins : List Coin,
      selectInputs amt coins = .error .insufficientFunds →
      ∀ k, coinSum (coins.take k) < amt) ∧
    (∀ (sz : TxSizes) (feeRate dustLimit : Int) (coins selected : List Coin)
        (outputAmt changeAmt : Int),
      CoinSelectSubtractFees sz feeRate amt dustLimit coins =
        .ok (selected, outputAmt, changeAmt) →
      dustLimit < outputAmt ∧
      (changeAmt ≠ 0 → dustLimit < changeAmt) ∧
      5 * (coinSum selected - (outputAmt + changeAmt)) ≤ outputAmt + changeAmt) := by
  have hok : ∀ (coins : List Coin) (t : Int) (pre : List Coin),
      selectInputs amt coins = .ok (t, pre) →
      pre = coins.take pre.length ∧ t = coinSum pre ∧ amt ≤ t ∧
      ∀ j, j < pre.length → coinSum (coins.take j) < amt := by
    intro coins t pre h
    obtain ⟨k, hk1, hklen, hpre, ht, hamtle, hlt⟩ :=
      selectInputsLoop_ok amt coins 0 t pre (by omega) h
    have hlen : pre.length = k := by
      rw [hpre]
      exact List.length_take_of_le hklen
    refine ⟨by rw [hlen, ← hpre], by omega, hamtle, ?_⟩
    intro j hj
    have := hlt j (by omega)
    omega
  refine ⟨hok, ?_, ?_⟩
  · intro coins h k
    rcases Nat.eq_zero_or_pos k with h0 | hpos
    · subst h0
      simpa [coinSum_nil] using hamt
    · by_cases hk : k ≤ coins.length
      · have := selectInputsLoop_err amt coins 0 h k hpos hk
        omega
      · have htake : coins.take k = coins := List.take_of_length_le (by omega)
        rcases Nat.eq_zero_or_pos coins.length with hc0 | hcpos
        · have hcn : coins = [] := List.eq_nil_of_length_eq_zero hc0
          subst hcn
          simpa [coinSum_nil] using hamt
        · have := selectInputsLoop_err amt coins 0 h coins.length hcpos (le_refl _)
          rw [htake]
          rw [List.take_length] at this
          omega
  · intro sz feeRate dustLimit coins selected outputAmt changeAmt h
    simp only [CoinSelectSubtractFees] at h
    split at h
    · exact Except.noConfusion h
    · rename_i totalAtoms selectedUtxos heq
      split at h
      · exact Except.noConfusion h
      · split at h
        · exact Except.noConfusion h
        · rename_i hall hdust
          obtain ⟨hpre, ht, hamtle, _⟩ := hok coins totalAtoms selectedUtxos heq
          split at h
          · rename_i hc
            split at h
            · exact Except.noConfusion h
            · rename_i hfeeok
              simp only [Except.ok.injEq, Prod.mk.injEq] at h
              obtain ⟨hsel, hout, hchg⟩ := h
              subst hsel
              dsimp only at hfeeok
              rw [hout, hchg] at hfeeok hc
              have htot : 0 ≤ outputAmt + changeAmt := by
                by_contra hneg
                have h1 := tdiv_five_nonpos_of_neg (outputAmt + changeAmt) (by omega)
                omega
              have h2 := tdiv_five_mul_le (outputAmt + changeAmt) htot
              exact ⟨hc.2, fun _ => hc.1, by omega⟩
          · rename_i hc
            split at h
            · exact Except.noConfusion h
            · rename_i hfeeok
              simp only [Except.ok.injEq, Prod.mk.injEq] at h
              obtain ⟨hsel, hout, hchg⟩ := h
              subst hsel
              dsimp only at hfeeok
              rw [hout, hchg] at hfeeok
              rw [hout] at hdust
              have htot : 0 ≤ outputAmt + changeAmt := by
                by_contra hneg
                have h1 := tdiv_five_nonpos_of_neg (outputAmt + changeAmt) (by omega)
                omega
              have h2 := tdiv_five_mul_le (outputAmt + changeAmt) htot
              exact ⟨by omega, fun hne => absurd hchg.symm hne, by omega⟩

/-- Witness for the amended C10 at a concrete coin list and fee rate. -/
theorem coinSelect_spec_amended_witness :
    ((⟨1200, [⟨500, .pubKeyHash⟩, ⟨700, .pubKeyHash⟩]⟩ :
        Int × List Coin).2 =
      List.take 2 [⟨500, .pubKeyHash⟩, ⟨700, .pubKeyHash⟩] ∧
      (1200 : Int) = coinSum [⟨500, .pubKeyHash⟩, ⟨700, .pubKeyHash⟩] ∧
      (1000 : Int) ≤ 1200 ∧
      ∀ j, j < ([⟨500, ScriptClass.pubKeyHash⟩, ⟨700, ScriptClass.pubKeyHash⟩] :
        List Coin).length →
        coinSum (List.take j [⟨500, ScriptClass.pubKeyHash⟩,
          ⟨700, ScriptClass.pubKeyHash⟩]) < 1000) ∧
    ((6030 : Int) < 997490 ∧ ((1000000 : Int) ≠ 0 → (6030 : Int) < 1000000) ∧
      5 * (coinSum [⟨2000000, ScriptClass.pubKeyHash⟩] - (997490 + 1000000)) ≤
        997490 + 1000000) := by
  constructor
  · have h := (coinSelect_spec_amended 1000 (by decide)).1
      [⟨500, .pubKeyHash⟩, ⟨700, .pubKeyHash⟩] 1200
      [⟨500, .pubKeyHash⟩, ⟨700, .pubKeyHash⟩] (by rfl)
    simpa using h
  · exact (coinSelect_spec_amended 1000000 (by decide)).2.2
      ⟨15, 166, 34, 36⟩ 10000 6030 [⟨2000000, .pubKeyHash⟩]
      [⟨2000000, .pubKeyHash⟩] 997490 1000000 (by rfl)

theorem lookupReserved_mem (towerID i : Nat) (l : List (Nat × Nat)) :
    lookupReserved towerID l = some i → (towerID, i) ∈ l := by
  induction l with
  | nil => intro h; exact Option.noConfusion h
  | cons r rest ih =>
    intro h
    obtain ⟨t, j⟩ := r
    simp only [lookupReserved] at h
    split at h
    · rename_i ht
      simp only [Option.some.injEq] at h
      subst ht h
      exact List.mem_cons_self _ _
    · exact List.mem_cons_of_mem _ (ih h)

theorem lookupReserved_filter_ne (towerID : Nat) (l : List (Nat × Nat)) :
    lookupReserved towerID (l.filter (fun r => r.1 != towerID)) = none := by
  induction l with
  | nil => rfl
  | cons r rest ih =>
    obtain ⟨t, j⟩ := r
    by_cases ht : t = towerID
    · subst ht
      simpa [List.filter_cons] using ih
    · simp only [List.filter_cons]
      have hb : ((t, j).1 != towerID) = true := by
        simpa using ht
      rw [hb]
      simp only [lookupReserved, if_neg ht]
      exact ih

theorem nextSessionKeyIndex_reserved (db : WtClientDB) (t i : Nat)
    (h : lookupReserved t db.reserved = some i) :
    NextSessionKeyIndex db t = (i, db) := by
  simp [NextSessionKeyIndex, h]

theorem nextSessionKeyIndex_fresh (db : WtClientDB) (t : Nat)
    (h : lookupReserved t db.reserved = none) :
    NextSessionKeyIndex db t =
      (db.nextIndex,
        ⟨db.nextIndex + 1, (t, db.nextIndex) :: db.reserved, db.sessions⟩) := by
  simp [NextSessionKeyIndex, h]

/-- C3: NextSessionKeyIndex never returns index zero; it is idempotent while
the reservation is uncommitted; CreateClientSession fails with
ErrNoReservedKeyIndex when no index is reserved and with ErrIncorrectKeyIndex
when the session's key index differs from the reserved one; and once a
session consuming the reservation is created, the next NextSessionKeyIndex
call returns a different index. Both operations preserve well-formedness. -/
theorem clientDB_keyIndex_invariants :
    (∀ (db : WtClientDB) (t : Nat), WtDBWF db →
      (NextSessionKeyIndex db t).1 ≠ 0) ∧
    (∀ (db : WtClientDB) (t : Nat),
      (NextSessionKeyIndex (NextSessionKeyIndex db t).2 t).1 =
        (NextSessionKeyIndex db t).1) ∧
    (∀ (db : WtClientDB) (s : WtClientSession),
      lookupReserved s.towerID db.reserved = none →
      db.sessions.any (fun q => q.sessionID == s.sessionID) = false →
      CreateClientSession db s = .error .noReservedKeyIndex) ∧
    (∀ (db : WtClientDB) (s : WtClientSession) (i : Nat),
      lookupReserved s.towerID db.reserved = some i → s.keyIndex ≠ i →
      db.sessions.any (fun q => q.sessionID == s.sessionID) = false →
      CreateClientSession db s = .error .incorrectKeyIndex) ∧
    (∀ (db db2 : WtClientDB) (s : WtClientSession), WtDBWF db →
      CreateClientSession db s = .ok db2 →
      WtDBWF db2 ∧ (NextSessionKeyIndex db2 s.towerID).1 ≠ s.keyIndex) ∧
    (∀ (db : WtClientDB) (t : Nat), WtDBWF db →
      WtDBWF (NextSessionKeyIndex db t).2) := by
  refine ⟨?_, ?_, ?_, ?_, ?_, ?_⟩
  · intro db t hwf
    rcases hl : lookupReserved t db.reserved with _ | i
    · rw [nextSessionKeyIndex_fresh db t hl]
      have h1 := hwf.1
      simp only
      omega
    · rw [nextSessionKeyIndex_reserved db t i hl]
      have hm := hwf.2.1 (t, i) (lookupReserved_mem t i db.reserved hl)
      have hm1 : 1 ≤ i := hm.1
      simp only
      omega
  · intro db t
    rcases hl : lookupReserved t db.reserved with _ | i
    · rw [nextSessionKeyIndex_fresh db t hl]
      have h2 : lookupReserved t ((t, db.nextIndex) :: db.reserved) =
          some db.nextIndex := by
        simp [lookupReserved]
      rw [nextSessionKeyIndex_reserved
        ⟨db.nextIndex + 1, (t, db.nextIndex) :: db.reserved, db.sessions⟩ t
        db.nextIndex h2]
    · rw [nextSessionKeyIndex_reserved db t i hl]
      rw [nextSessionKeyIndex_reserved db t i hl]
  · intro db s hl hany
    simp [CreateClientSession, hany, hl]
  · intro db s i hl hne hany
    simp [CreateClientSession, hany, hl, hne]
  · intro db db2 s hwf h
    simp only [CreateClientSession] at h
    split at h
    · exact Except.noConfusion h
    · rename_i hany
      rcases hl : lookupReserved s.towerID db.reserved with _ | i
      · rw [hl] at h
        exact Except.noConfusion h
      · rw [hl] at h
        split at h
        · exact Except.noConfusion h
        · rename_i x2 i2 hkey
          simp only [Option.some.injEq] at hkey
          subst hkey
          split at h
          · exact Except.noConfusion h
          · rename_i hkeyne
            simp only [Except.ok.injEq] at h
            have hmem := hwf.2.1 (s.towerID, i)
              (lookupReserved_mem _ _ _ hl)
            have hm2 : i < db.nextIndex := hmem.2
            have hkeyi : s.keyIndex = i := not_not.mp hkeyne
            constructor
            · rw [← h]
              refine ⟨hwf.1, ?_, ?_⟩
              · intro r hr
                exact hwf.2.1 r (List.mem_of_mem_filter hr)
              · intro q hq
                rcases List.mem_cons.mp hq with hq1 | hq2
                · subst hq1
                  show q.keyIndex < db.nextIndex
                  omega
                · exact hwf.2.2 q hq2
            · rw [← h]
              have hnone : lookupReserved s.towerID
                  (db.reserved.filter (fun r => r.1 != s.towerID)) = none :=
                lookupReserved_filter_ne s.towerID db.reserved
              rw [nextSessionKeyIndex_fresh
                ⟨db.nextIndex, db.reserved.filter (fun r => r.1 != s.towerID),
                  s :: db.sessions⟩ s.towerID hnone]
              simp only
              omega
  · intro db t hwf
    rcases hl : lookupReserved t db.reserved with _ | i
    · rw [nextSessionKeyIndex_fresh db t hl]
      simp only
      refine ⟨?_, ?_, ?_⟩
      · show 1 ≤ db.nextIndex + 1
        omega
      · show ∀ r ∈ (t, db.nextIndex) :: db.reserved,
          1 ≤ r.2 ∧ r.2 < db.nextIndex + 1
        intro r hr
        rcases List.mem_cons.mp hr with hr1 | hr2
        · subst hr1
          show 1 ≤ db.nextIndex ∧ db.nextIndex < db.nextIndex + 1
          have h1 := hwf.1
          omega
        · have := hwf.2.1 r hr2
          omega
      · show ∀ q ∈ db.sessions, q.keyIndex < db.nextIndex + 1
        intro q hq
        have := hwf.2.2 q hq
        omega
    · rw [nextSessionKeyIndex_reserved db t i hl]
      exact hwf

/-- Witness for C3 on a concrete database run. -/
theorem clientDB_keyIndex_invariants_witness :
    (NextSessionKeyIndex initWtClientDB 3).1 ≠ 0 ∧
    (NextSessionKeyIndex (NextSessionKeyIndex initWtClientDB 3).2 3).1 =
      (NextSessionKeyIndex initWtClientDB 3).1 ∧
    CreateClientSession initWtClientDB ⟨3, 0, 7⟩ = .error .noReservedKeyIndex ∧
    CreateClientSession ⟨2, [(3, 1)], []⟩ ⟨3, 0, 7⟩ =
      .error .incorrectKeyIndex ∧
    (WtDBWF ⟨2, [], [⟨3, 1, 7⟩]⟩ ∧
      (NextSessionKeyIndex ⟨2, [], [⟨3, 1, 7⟩]⟩ 3).1 ≠ 1) := by
  refine ⟨clientDB_keyIndex_invariants.1 initWtClientDB 3 (by decide),
    clientDB_keyIndex_invariants.2.1 initWtClientDB 3,
    clientDB_keyIndex_invariants.2.2.1 initWtClientDB ⟨3, 0, 7⟩ rfl rfl,
    clientDB_keyIndex_invariants.2.2.2.1 ⟨2, [(3, 1)], []⟩ ⟨3, 0, 7⟩ 1 rfl
      (by decide) rfl, ?_⟩
  exact clientDB_keyIndex_invariants.2.2.2.2.1 ⟨2, [(3, 1)], []⟩
    ⟨2, [], [⟨3, 1, 7⟩]⟩ ⟨3, 1, 7⟩ (by decide) (by rfl)

theorem commitSweepStep_offered_absorbing (d : Nat) (m : Int)
    (evs : List ChainEvent) :
    evs.foldl (commitSweepStep d) (.offered m) = .offered m := by
  induction evs with
  | nil => rfl
  | cons e rest ih =>
    cases e <;> simpa [commitSweepStep] using ih

theorem commitSweepStep_waiting_below (d : Nat) (m : Int) (hs : List Int)
    (hall : ∀ e ∈ hs, e < m - 1) :
    (hs.map ChainEvent.epoch).foldl (commitSweepStep d) (.waitingHeight m) =
      .waitingHeight m := by
  induction hs with
  | nil => rfl
  | cons e rest ih =>
    have he : e < m - 1 := hall e (List.mem_cons_self _ _)
    simp only [List.map_cons, List.foldl_cons, commitSweepStep]
    rw [if_neg (by omega)]
    exact ih (fun x hx => hall x (List.mem_cons_of_mem _ hx))

theorem commitSweepStep_waiting_trigger (d : Nat) (m : Int) (hs : List Int)
    (hex : ∃ e ∈ hs, m - 1 ≤ e) :
    (hs.map ChainEvent.epoch).foldl (commitSweepStep d) (.waitingHeight m) =
      .offered m := by
  induction hs with
  | nil => simp at hex
  | cons e rest ih =>
    by_cases he : m - 1 ≤ e
    · simp only [List.map_cons, List.foldl_cons, commitSweepStep]
      rw [if_pos (by omega)]
      exact commitSweepStep_offered_absorbing d m _
    · simp only [List.map_cons, List.foldl_cons, commitSweepStep]
      rw [if_neg (by omega)]
      refine ih ?_
      rcases hex with ⟨x, hx, hxm⟩
      rcases List.mem_cons.mp hx with h1 | h2
      · subst h1
        omega
      · exact ⟨x, h2, hxm⟩

/-- C4: the commit-sweep resolver never offers the commitment to-self output
before CSV maturity: with MaturityDelay d bigger than zero and confirmation
at height H, the reported maturity is H + d; as long as only block epochs of
height below H + d - 1 arrive the input is withheld, and once an epoch of
height at least H + d - 1 is seen the input is offered to the sweeper (so
the sweep is valid at H + d); with MaturityDelay zero the input is offered
immediately upon confirmation. -/
theorem commitSweepResolver_csv (d : Nat) (H : Int) (heights : List Int) :
    (0 < d →
      ((∀ e ∈ heights, e < H + (d : Int) - 1) →
        commitSweepRun d (.conf H :: heights.map .epoch) =
          .waitingHeight (H + (d : Int))) ∧
      ((∃ e ∈ heights, H + (d : Int) - 1 ≤ e) →
        commitSweepRun d (.conf H :: heights.map .epoch) =
          .offered (H + (d : Int)))) ∧
    commitSweepRun 0 [.conf H] = .offered H := by
  constructor
  · intro hd
    have hstep : commitSweepStep d CommitResolverState.waitingConf (.conf H) =
        .waitingHeight (H + (d : Int)) := by
      simp only [commitSweepStep]
      rw [if_neg (by omega)]
    constructor
    · intro hall
      simp only [commitSweepRun, List.foldl_cons, hstep]
      exact commitSweepStep_waiting_below d (H + (d : Int)) heights
        (by simpa using hall)
    · intro hex
      simp only [commitSweepRun, List.foldl_cons, hstep]
      exact commitSweepStep_waiting_trigger d (H + (d : Int)) heights
        (by simpa using hex)
  · simp [commitSweepRun, commitSweepStep]

/-- Witness for C4 at delay 3 and confirmation height 99: maturity is 102,
the epoch at height 100 does not release the input, the epoch at height 101
does, and a zero-delay resolver offers at confirmation. -/
theorem commitSweepResolver_csv_witness :
    commitSweepRun 3 [.conf 99, .epoch 100] = .waitingHeight 102 ∧
    commitSweepRun 3 [.conf 99, .epoch 100, .epoch 101] = .offered 102 ∧
    commitSweepRun 0 [.conf 99] = .offered 99 := by
  refine ⟨?_, ?_, (commitSweepResolver_csv 0 99 []).2⟩
  · have h := ((commitSweepResolver_csv 3 99 [100]).1 (by decide)).1 (by decide)
    simpa using h
  · have h := ((commitSweepResolver_csv 3 99 [100, 101]).1 (by decide)).2
      ⟨101, by decide, by decide⟩
    simpa using h

/-- C5: an incoming funding open request above the configured size limit is
answered with an Error rather than AcceptChannel: with NoWumboChans set,
amounts above min(MaxChanSize, MaxFundingAmount) are rejected, and a
MaxChanSize above MaxFundingAmount has no further effect; with wumbo
channels allowed, exactly the amounts above MaxChanSize are rejected. -/
theorem fundingOpen_maxChanSize (maxChanSize amt : Int) :
    (fundingOpenSizeCheck true maxChanSize amt = .errorMsg ↔
      min maxChanSize MaxFundingAmount < amt) ∧
    (MaxFundingAmount < maxChanSize →
      (fundingOpenSizeCheck true maxChanSize amt = .acceptChannel ↔
        amt ≤ MaxFundingAmount)) ∧
    (fundingOpenSizeCheck false maxChanSize amt = .errorMsg ↔
      maxChanSize < amt) ∧
    (fundingOpenSizeCheck false maxChanSize amt = .acceptChannel ↔
      amt ≤ maxChanSize) := by
  refine ⟨?_, ?_, ?_, ?_⟩
  · simp only [fundingOpenSizeCheck, true_and]
    split_ifs with h1 h2 <;> simp <;> omega
  · intro h
    simp only [fundingOpenSizeCheck, true_and]
    split_ifs with h1 h2 <;> simp <;> omega
  · simp only [fundingOpenSizeCheck, Bool.false_eq_true, false_and, if_false]
    split_ifs with h1 <;> simp <;> omega
  · simp only [fundingOpenSizeCheck, Bool.false_eq_true, false_and, if_false]
    split_ifs with h1 <;> simp <;> omega

/-- Witness for C5 at the boundary amounts of the channel-size tests. -/
theorem fundingOpen_maxChanSize_witness :
    (fundingOpenSizeCheck true (MaxFundingAmount - 1) MaxFundingAmount =
        .errorMsg ↔ min (MaxFundingAmount - 1) MaxFundingAmount <
        MaxFundingAmount) ∧
    (fundingOpenSizeCheck true (MaxFundingAmount + 1) MaxFundingAmount =
        .acceptChannel ↔ MaxFundingAmount ≤ MaxFundingAmount) ∧
    (fundingOpenSizeCheck false 1100000000 1100000001 = .errorMsg ↔
      (1100000000 : Int) < 1100000001) := by
  exact ⟨(fundingOpen_maxChanSize (MaxFundingAmount - 1) MaxFundingAmount).1,
    (fundingOpen_maxChanSize (MaxFundingAmount + 1) MaxFundingAmount).2.1
      (by decide),
    (fundingOpen_maxChanSize 1100000000 1100000001).2.2.1⟩

/-- C6: an AcceptChannel whose MinAcceptDepth exceeds MaxNumConfs makes the
initiator abort with an Error message instead of sending FundingCreated; a
depth within the bound proceeds to FundingCreated. -/
theorem fundingAccept_maxConfs (d : Nat) :
    (MaxNumConfs < d →
      fundingAcceptDepthCheck d = .errorNumConfsTooLarge) ∧
    (d ≤ MaxNumConfs →
      fundingAcceptDepthCheck d = .sendFundingCreated) := by
  constructor
  · intro h
    simp only [fundingAcceptDepthCheck]
    rw [if_pos (by omega)]
  · intro h
    simp only [fundingAcceptDepthCheck]
    rw [if_neg (by omega)]

/-- Witness for C6 just above and just below the bound. -/
theorem fundingAccept_maxConfs_witness :
    fundingAcceptDepthCheck (MaxNumConfs + 1) = .errorNumConfsTooLarge ∧
    fundingAcceptDepthCheck MaxNumConfs = .sendFundingCreated := by
  exact ⟨(fundingAccept_maxConfs (MaxNumConfs + 1)).1 (by omega),
    (fundingAccept_maxConfs MaxNumConfs).2 (by omega)⟩

/-- C7: if sending FundingLocked fails after confirmation, the persisted
state remains markedOpen; on restart the funding manager retransmits
FundingLocked and only a successful send advances the state to
fundingLockedSent; and receiving a retransmitted FundingLocked leaves the
peer's channel set unchanged (no duplicate channel state). -/
theorem fundingLocked_retry :
    sendFundingLocked false .markedOpen = .markedOpen ∧
    restartFundingManager true .markedOpen = (true, .fundingLockedSent) ∧
    restartFundingManager false .markedOpen = (true, .markedOpen) ∧
    ∀ (chans : List Nat) (c : Nat),
      processFundingLocked (processFundingLocked chans c) c =
        processFundingLocked chans c := by
  refine ⟨rfl, rfl, rfl, ?_⟩
  intro chans c
  by_cases h : c ∈ chans
  · simp [processFundingLocked, h]
  · simp [processFundingLocked, h]

theorem charToVal_valToChar (c : Char) (v : Nat) :
    charToVal c = some v → valToChar v = c := by
  intro h
  unfold charToVal at h
  split at h <;> first
    | exact Option.noConfusion h
    | (injection h with hv; subst hv; rfl)

theorem charToVal_lt (c : Char) (v : Nat) :
    charToVal c = some v → v < 32 := by
  intro h
  unfold charToVal at h
  split at h <;> first
    | exact Option.noConfusion h
    | (injection h with hv; omega)

theorem digitVal_digitChar (c : Char) (d : Nat) :
    digitVal c = some d → digitChar d = c := by
  intro h
  unfold digitVal at h
  split at h <;> first
    | exact Option.noConfusion h
    | (injection h with hv; subst hv; rfl)

theorem digitVal_lt (c : Char) (d : Nat) :
    digitVal c = some d → d < 10 := by
  intro h
  unfold digitVal at h
  split at h <;> first
    | exact Option.noConfusion h
    | (injection h with hv; omega)

theorem charToMult_multChar (c : Char) (m : AmtMultiplier) :
    charToMult c = some m → multChar m = c := by
  intro h
  unfold charToMult at h
  split at h <;> first
    | exact Option.noConfusion h
    | (injection h with hv; subst hv; rfl)

theorem charsToVals_map (data : List Char) :
    ∀ vals, charsToVals data = some vals → vals.map valToChar = data := by
  induction data with
  | nil =>
    intro vals h
    simp only [charsToVals, Option.some.injEq] at h
    subst h
    rfl
  | cons c rest ih =>
    intro vals h
    simp only [charsToVals] at h
    rcases hc : charToVal c with _ | v
    · rw [hc] at h
      exact Option.noConfusion h
    · rw [hc] at h
      rcases hr : charsToVals rest with _ | vs
      · rw [hr] at h
        exact Option.noConfusion h
      · rw [hr] at h
        simp only [Option.some.injEq] at h
        subst h
        simp only [List.map_cons]
        rw [charToVal_valToChar c v hc, ih vs hr]

theorem charsToVals_lt (data : List Char) :
    ∀ vals, charsToVals data = some vals → ∀ v ∈ vals, v < 32 := by
  induction data with
  | nil =>
    intro vals h
    simp only [charsToVals, Option.some.injEq] at h
    subst h
    intro v hv
    simp at hv
  | cons c rest ih =>
    intro vals h
    simp only [charsToVals] at h
    rcases hc : charToVal c with _ | v
    · rw [hc] at h
      exact Option.noConfusion h
    · rw [hc] at h
      rcases hr : charsToVals rest with _ | vs
      · rw [hr] at h
        exact Option.noConfusion h
      · rw [hr] at h
        simp only [Option.some.injEq] at h
        subst h
        intro x hx
        rcases List.mem_cons.mp hx with h1 | h2
        · subst h1
          exact charToVal_lt c x hc
        · exact ih vs hr x h2

theorem splitAtLastOne_eq (s : List Char) :
    ∀ pre post, splitAtLastOne s = some (pre, post) →
      s = pre ++ '1' :: post := by
  induction s with
  | nil =>
    intro pre post h
    exact Option.noConfusion h
  | cons c rest ih =>
    intro pre post h
    simp only [splitAtLastOne] at h
    rcases hr : splitAtLastOne rest with _ | p
    · rw [hr] at h
      by_cases hc : c = '1'
      · rw [if_pos hc] at h
        simp only [Option.some.injEq, Prod.mk.injEq] at h
        obtain ⟨h1, h2⟩ := h
        subst hc
        rw [← h1, ← h2]
        rfl
      · rw [if_neg hc] at h
        exact Option.noConfusion h
    · obtain ⟨pre2, post2⟩ := p
      rw [hr] at h
      simp only [Option.some.injEq, Prod.mk.injEq] at h
      obtain ⟨h1, h2⟩ := h
      subst h2
      rw [← h1, ih pre2 post2 hr]
      rfl

theorem matchNetwork_eq (cs : List Char) (net : InvNetwork) (rest : List Char) :
    matchNetwork cs = some (net, rest) → cs = netHRP net ++ rest := by
  intro h
  unfold matchNetwork at h
  split at h <;> first
    | exact Option.noConfusion h
    | (simp only [Option.some.injEq, Prod.mk.injEq] at h
       obtain ⟨h1, h2⟩ := h
       subst h1
       subst h2
       rfl)

theorem parseAmtTail_encode (cs : List Char) :
    ∀ ds m, parseAmtTail cs = some (ds, m) →
      (ds.map digitChar ++
        (match m with
         | none => ([] : List Char)
         | some mm => [multChar mm]) = cs) ∧
      ∀ d ∈ ds, d < 10 := by
  induction cs with
  | nil =>
    intro ds m h
    simp only [parseAmtTail, Option.some.injEq, Prod.mk.injEq] at h
    obtain ⟨h1, h2⟩ := h
    subst h1
    subst h2
    exact ⟨rfl, by intro d hd; simp at hd⟩
  | cons c rest ih =>
    intro ds m h
    simp only [parseAmtTail] at h
    rcases hd : digitVal c with _ | d
    · rw [hd] at h
      rcases hm : charToMult c with _ | mm
      · rw [hm] at h
        exact Option.noConfusion h
      · rw [hm] at h
        cases rest with
        | cons x xs => exact Option.noConfusion h
        | nil =>
          simp only [Option.some.injEq, Prod.mk.injEq] at h
          obtain ⟨h1, h2⟩ := h
          subst h1
          subst h2
          refine ⟨?_, by intro d hd2; simp at hd2⟩
          simp only [List.map_nil, List.nil_append]
          rw [charToMult_multChar c mm hm]
    · rw [hd] at h
      rcases hr : parseAmtTail rest with _ | p
      · rw [hr] at h
        simp only [Option.map] at h
        exact Option.noConfusion h
      · obtain ⟨ds2, m2⟩ := p
        rw [hr] at h
        simp only [Option.map, Option.some.injEq, Prod.mk.injEq] at h
        obtain ⟨h1, h2⟩ := h
        subst h2
        rw [← h1]
        obtain ⟨henc, hbound⟩ := ih ds2 _ hr
        refine ⟨?_, ?_⟩
        · simp only [List.map_cons, List.cons_append]
          rw [digitVal_digitChar c d hd, henc]
        · intro x hx
          rcases List.mem_cons.mp hx with hx1 | hx2
          · subst hx1
            exact digitVal_lt c x hd
          · exact hbound x hx2

theorem parseAmount_encode (cs : List Char)
    (a : Option (List Nat × Option AmtMultiplier)) :
    parseAmount cs = some a →
      encodeAmount a = cs ∧
      ∀ ds m, a = some (ds, m) →
        ds ≠ [] ∧ ds.head? ≠ some 0 ∧ ∀ d ∈ ds, d < 10 := by
  intro h
  cases cs with
  | nil =>
    simp only [parseAmount, Option.some.injEq] at h
    subst h
    exact ⟨rfl, by intro ds m h2; exact Option.noConfusion h2⟩
  | cons c rest =>
    simp only [parseAmount] at h
    rcases ht : parseAmtTail (c :: rest) with _ | p
    · rw [ht] at h
      exact Option.noConfusion h
    · obtain ⟨ds, m⟩ := p
      rw [ht] at h
      cases ds with
      | nil => exact Option.noConfusion h
      | cons d tail =>
        dsimp only at h
        by_cases hd : d = 0
        · rw [if_pos hd] at h
          exact Option.noConfusion h
        · rw [if_neg hd] at h
          simp only [Option.some.injEq] at h
          subst h
          obtain ⟨henc, hbound⟩ := parseAmtTail_encode (c :: rest) (d :: tail) m ht
          refine ⟨by simpa [encodeAmount] using henc, ?_⟩
          intro ds2 m2 h2
          simp only [Option.some.injEq, Prod.mk.injEq] at h2
          obtain ⟨h3, h4⟩ := h2
          subst h3
          refine ⟨by simp, ?_, hbound⟩
          simp only [List.head?_cons, ne_eq, Option.some.injEq]
          exact hd

set_option maxHeartbeats 1600000 in
theorem mkTaggedField_known (t : Nat) (p : List Nat) (f : TaggedField) :
    mkTaggedField t p = .known f → fieldTag f = t ∧ fieldPayload f = p := by
  intro h
  unfold mkTaggedField at h
  split_ifs at h <;>
    try exact FieldParseResult.noConfusion h
  all_goals try
    (injection h with hf
     subst hf
     refine ⟨?_, rfl⟩
     simp only [fieldTag]
     omega)
  all_goals
    (cases p with
     | nil => exact FieldParseResult.noConfusion h
     | cons v pr =>
       dsimp only at h
       by_cases hv : v ≤ 16
       · rw [if_pos hv] at h
         injection h with hf
         subst hf
         refine ⟨?_, rfl⟩
         simp only [fieldTag]
         omega
       · rw [if_neg hv] at h
         exact FieldParseResult.noConfusion h)

set_option maxHeartbeats 1600000 in
theorem mkTaggedField_routeHints (t : Nat) (p g : List Nat) :
    mkTaggedField t p = .known (.routeHints g) →
      routeHintByteLen g.length % 51 = 0 := by
  intro h
  have hk := mkTaggedField_known t p _ h
  unfold mkTaggedField at h
  split_ifs at h <;>
    try exact FieldParseResult.noConfusion h
  all_goals try
    (injection h with hf
     exact absurd hf.symm (by intro hx; exact TaggedField.noConfusion hx))
  all_goals try
    (injection h with hf
     injection hf with hg
     subst hg
     assumption)
  all_goals
    (cases p with
     | nil => exact FieldParseResult.noConfusion h
     | cons v pr =>
       dsimp only at h
       by_cases hv : v ≤ 16
       · rw [if_pos hv] at h
         injection h with hf
         exact absurd hf.symm (by intro hx; exact TaggedField.noConfusion hx)
       · rw [if_neg hv] at h
         exact FieldParseResult.noConfusion h)

theorem parseFieldsGroupsFuel_sound (fuel : Nat) :
    ∀ (vals : List Nat) (fs : List TaggedField) (sk : Bool),
      parseFieldsGroupsFuel fuel vals = .ok (fs, sk) →
        (∀ g, TaggedField.routeHints g ∈ fs →
          routeHintByteLen g.length % 51 = 0) ∧
        (sk = false → (∀ v ∈ vals, v < 32) →
          encodeFieldsGroups fs = vals) := by
  induction fuel with
  | zero =>
    intro vals fs sk h
    cases vals with
    | nil =>
      simp only [parseFieldsGroupsFuel, Except.ok.injEq, Prod.mk.injEq] at h
      obtain ⟨h1, h2⟩ := h
      subst h1
      exact ⟨by intro g hg; simp at hg, fun _ _ => rfl⟩
    | cons a l => exact Except.noConfusion h
  | succ n ih =>
    intro vals fs sk h
    match vals with
    | [] =>
      simp only [parseFieldsGroupsFuel, Except.ok.injEq, Prod.mk.injEq] at h
      obtain ⟨h1, h2⟩ := h
      subst h1
      exact ⟨by intro g hg; simp at hg, fun _ _ => rfl⟩
    | [t] => exact Except.noConfusion h
    | [t, l1] => exact Except.noConfusion h
    | t :: l1 :: l0 :: rest =>
      simp only [parseFieldsGroupsFuel] at h
      split at h
      · exact Except.noConfusion h
      · rename_i hlen2
        split at h
        · exact Except.noConfusion h
        · rename_i f hmk
          split at h
          · exact Except.noConfusion h
          · rename_i fs2 sk2 hrec
            simp only [Except.ok.injEq, Prod.mk.injEq] at h
            obtain ⟨h1, h2⟩ := h
            subst h1
            subst h2
            obtain ⟨ihr, ihe⟩ := ih _ fs2 sk2 hrec
            constructor
            · intro g hg
              rcases List.mem_cons.mp hg with hg1 | hg2
              · subst hg1
                exact mkTaggedField_routeHints t _ g hmk
              · exact ihr g hg2
            · intro hsk hbound
              obtain ⟨htag, hpay⟩ := mkTaggedField_known t _ f hmk
              have hl1 : l1 < 32 := hbound l1 (by simp)
              have hl0 : l0 < 32 := hbound l0 (by simp)
              have htk : (List.take (l1 * 32 + l0) rest).length = l1 * 32 + l0 := by
                simp only [List.length_take]
                omega
              have hdiv : (l1 * 32 + l0) / 32 = l1 := by omega
              have hmod : (l1 * 32 + l0) % 32 = l0 := by omega
              simp only [encodeFieldsGroups, encodeField, htag, hpay, htk, hdiv, hmod]
              rw [ihe hsk ?_]
              · simp only [List.cons_append]
                rw [List.take_append_drop]
              · intro v hv
                exact hbound v (by
                  simp only [List.mem_cons]
                  right
                  right
                  right
                  exact List.mem_of_mem_drop hv)
        · rename_i hmk
          split at h
          · exact Except.noConfusion h
          · rename_i fs2 sk2 hrec
            simp only [Except.ok.injEq, Prod.mk.injEq] at h
            obtain ⟨h1, h2⟩ := h
            subst h1
            subst h2
            obtain ⟨ihr, _⟩ := ih _ fs2 sk2 hrec
            refine ⟨ihr, fun hsk => absurd hsk (by simp)⟩

/-- C8 (amended): when Decode accepts an invoice string whose tagged-field
section contains no field the decoder skips (no unknown tag and no
ill-sized known field), Encode of the decoded invoice reproduces the
string character for character; and every accepted string starts with the
`ln` marker, carries a payment-hash field, has every route-hint field
regroup into a whole multiple of 51 bytes, and has a well-formed amount
part (nonempty digits without a leading zero whenever an amount is
present). -/
theorem invoice_decode_encode_amended (s : String) (inv : Invoice) :
    Decode s = .ok inv →
      (dataPartSkipped s = false → Encode inv = s) ∧
      (s.data.take 2 = ['l', 'n'] ∧
        (∃ g, TaggedField.paymentHash g ∈ inv.fields) ∧
        (∀ g, TaggedField.routeHints g ∈ inv.fields →
          routeHintByteLen g.length % 51 = 0) ∧
        ∀ ds m, inv.amount = some (ds, m) →
          ds ≠ [] ∧ ds.head? ≠ some 0 ∧ ∀ d ∈ ds, d < 10) := by
  intro h
  unfold Decode decodeInvoiceChars at h
  split at h
  · exact Except.noConfusion h
  · rename_i hrp data hsp
    split at h
    · rename_i hrpRest
      split at h
      · exact Except.noConfusion h
      · rename_i net amtChars hmn
        split at h
        · exact Except.noConfusion h
        · rename_i amount hpa
          split at h
          · exact Except.noConfusion h
          · rename_i vals hcv
            split at h
            · exact Except.noConfusion h
            · rename_i fields sk hpf
              split at h
              · rename_i hany
                simp only [Except.ok.injEq] at h
                subst h
                have hsd : s.data = ('l' :: 'n' :: hrpRest) ++ '1' :: data :=
                  splitAtLastOne_eq s.data _ _ hsp
                have hnet : hrpRest = netHRP net ++ amtChars :=
                  matchNetwork_eq hrpRest net amtChars hmn
                obtain ⟨hamt, hamtvalid⟩ := parseAmount_encode amtChars amount hpa
                have hmap : vals.map valToChar = data := charsToVals_map data vals hcv
                have hlt : ∀ v ∈ vals, v < 32 := charsToVals_lt data vals hcv
                unfold parseFieldsGroups at hpf
                obtain ⟨hrh, hefg⟩ :=
                  parseFieldsGroupsFuel_sound vals.length vals fields sk hpf
                constructor
                · intro hds
                  have hskf : sk = false := by
                    unfold dataPartSkipped at hds
                    rw [hsp] at hds
                    dsimp only at hds
                    rw [hcv] at hds
                    dsimp only at hds
                    unfold parseFieldsGroups at hds
                    rw [hpf] at hds
                    exact hds
                  have henc : encodeFieldsGroups fields = vals := hefg hskf hlt
                  cases s with
                  | mk sd =>
                    have hsd2 : sd = 'l' :: 'n' :: hrpRest ++ '1' :: data := hsd
                    exact congrArg String.mk (by
                      show 'l' :: 'n' ::
                          (netHRP net ++ encodeAmount amount ++
                            '1' :: (encodeFieldsGroups fields).map valToChar) = sd
                      rw [hamt, henc, hmap, hsd2, hnet]
                      simp)
                constructor
                · rw [hsd]
                  rfl
                constructor
                · obtain ⟨x, hx, hxp⟩ := List.any_eq_true.mp hany
                  cases x with
                  | paymentHash g => exact ⟨g, hx⟩
                  | description g => exact absurd hxp (by simp [isPaymentHashField])
                  | descriptionHash g => exact absurd hxp (by simp [isPaymentHashField])
                  | expiry g => exact absurd hxp (by simp [isPaymentHashField])
                  | destination g => exact absurd hxp (by simp [isPaymentHashField])
                  | fallbackAddr v g => exact absurd hxp (by simp [isPaymentHashField])
                  | routeHints g => exact absurd hxp (by simp [isPaymentHashField])
                  | minFinalCltv g => exact absurd hxp (by simp [isPaymentHashField])
                  | paymentAddr g => exact absurd hxp (by simp [isPaymentHashField])
                  | features g => exact absurd hxp (by simp [isPaymentHashField])
                constructor
                · exact hrh
                · intro ds m hdm
                  exact hamtvalid ds m hdm
              · exact Except.noConfusion h
    · exact Except.noConfusion h

/-- C8 counterexample to the unrestricted round-trip: a string whose data
part carries a valid payment-hash field followed by a field with the
unknown tag value 2 decodes successfully (the unknown field is skipped),
but re-encoding the decoded invoice drops the skipped field, so the
original string is not reproduced. -/
theorem invoice_roundtrip_counterexample :
    Decode ("lndcr1pp5qqqqqqqqqqqqqqqqqqqqqqqqqqqqqqqqqqqqqqqqqqqqqqqqqqqqzqq") =
      .ok ⟨InvNetwork.mainnet, none,
        [TaggedField.paymentHash (List.replicate 52 0)]⟩ ∧
    Encode ⟨InvNetwork.mainnet, none,
        [TaggedField.paymentHash (List.replicate 52 0)]⟩ ≠
      ("lndcr1pp5qqqqqqqqqqqqqqqqqqqqqqqqqqqqqqqqqqqqqqqqqqqqqqqqqqqqzqq") := by
  constructor
  · rfl
  · decide

/-- Witness: the amended round-trip theorem applied to a concrete
mainnet invoice string carrying exactly one payment-hash field. -/
theorem invoice_decode_encode_amended_witness :
    (dataPartSkipped ("lndcr1pp5qqqqqqqqqqqqqqqqqqqqqqqqqqqqqqqqqqqqqqqqqqqqqqqqqqqq") = false →
      Encode ⟨InvNetwork.mainnet, none,
        [TaggedField.paymentHash (List.replicate 52 0)]⟩ =
      ("lndcr1pp5qqqqqqqqqqqqqqqqqqqqqqqqqqqqqqqqqqqqqqqqqqqqqqqqqqqq")) ∧
    (("lndcr1pp5qqqqqqqqqqqqqqqqqqqqqqqqqqqqqqqqqqqqqqqqqqqqqqqqqqqq") : String).data.take 2 = ['l', 'n'] ∧
    (∃ g, TaggedField.paymentHash g ∈
      (Invoice.mk InvNetwork.mainnet none
        [TaggedField.paymentHash (List.replicate 52 0)]).fields) ∧
    (∀ g, TaggedField.routeHints g ∈
      (Invoice.mk InvNetwork.mainnet none
        [TaggedField.paymentHash (List.replicate 52 0)]).fields →
      routeHintByteLen g.length % 51 = 0) ∧
    ∀ ds m,
      (Invoice.mk InvNetwork.mainnet none
        [TaggedField.paymentHash (List.replicate 52 0)]).amount = some (ds, m) →
      ds ≠ [] ∧ ds.head? ≠ some 0 ∧ ∀ d ∈ ds, d < 10 :=
  invoice_decode_encode_amended
    ("lndcr1pp5qqqqqqqqqqqqqqqqqqqqqqqqqqqqqqqqqqqqqqqqqqqqqqqqqqqq")
    ⟨InvNetwork.mainnet, none, [TaggedField.paymentHash (List.replicate 52 0)]⟩
    (by rfl)
